import Mathlib

/-!
Shallow embedding of the gncAnalysis repository's period-partitioning and
split-aggregation engine (src/acctAnalysisSum.py, with near-identical copies in
src/getRevQtr.py and src/findAssetValue.py).

Python `int` is modelled by `Int`; Python `//` and `%` (floor division) by
`Int.fdiv` / `Int.fmod`; Python `datetime.date` by a year/month/day triple with
Python's chronological (lexicographic) ordering and exact Gregorian month
lengths; Python `Decimal` sums by `Rat` (decimal addition is exact);
exceptions by `Option`/`Except` results.
-/

/-- Python `datetime.date`: a calendar date. Python orders dates
chronologically, which on (year, month, day) triples of valid dates is the
lexicographic order. -/
structure Date where
  year : Int
  month : Int
  day : Int
deriving DecidableEq

instance : Inhabited Date := ⟨⟨1, 1, 1⟩⟩

/-- Chronological (lexicographic) `<=` on dates, as Python compares dates. -/
def Date.ble (a b : Date) : Bool :=
  a.year < b.year ||
    (a.year == b.year &&
      (a.month < b.month || (a.month == b.month && a.day ≤ b.day)))

/-- Chronological (lexicographic) `<` on dates, as Python compares dates. -/
def Date.blt (a b : Date) : Bool :=
  a.year < b.year ||
    (a.year == b.year &&
      (a.month < b.month || (a.month == b.month && a.day < b.day)))

instance : LE Date := ⟨fun a b => Date.ble a b = true⟩
instance : LT Date := ⟨fun a b => Date.blt a b = true⟩

instance (a b : Date) : Decidable (a ≤ b) :=
  inferInstanceAs (Decidable (Date.ble a b = true))

instance (a b : Date) : Decidable (a < b) :=
  inferInstanceAs (Decidable (Date.blt a b = true))

/-- Gregorian leap-year rule used by Python's `datetime`. -/
def isLeapYear (y : Int) : Bool :=
  y.fmod 4 == 0 && (y.fmod 100 != 0 || y.fmod 400 == 0)

/-- Number of days in a month, as in Python's `datetime`. -/
def daysInMonth (y m : Int) : Int :=
  if m == 2 then (if isLeapYear y then 29 else 28)
  else if m == 4 || m == 6 || m == 9 || m == 11 then 30
  else 31

/-- `d - ONE_DAY` for a Python date `d` (`ONE_DAY = timedelta(days=1)`). -/
def Date.pred (d : Date) : Date :=
  if 1 < d.day then ⟨d.year, d.month, d.day - 1⟩
  else if 1 < d.month then ⟨d.year, d.month - 1, daysInMonth d.year (d.month - 1)⟩
  else ⟨d.year - 1, 12, 31⟩

/-- `d + ONE_DAY` for a Python date `d`. -/
def Date.succ (d : Date) : Date :=
  if d.day < daysInMonth d.year d.month then ⟨d.year, d.month, d.day + 1⟩
  else if d.month < 12 then ⟨d.year, d.month + 1, 1⟩
  else ⟨d.year + 1, 1, 1⟩

/-- The dates Python's `datetime.date` can actually hold (month 1..12, day
within the month); every date coming out of the Python runtime satisfies
this. -/
def ValidDate (d : Date) : Prop :=
  1 ≤ d.month ∧ d.month ≤ 12 ∧ 1 ≤ d.day ∧ d.day ≤ daysInMonth d.year d.month

instance (d : Date) : Decidable (ValidDate d) := by
  unfold ValidDate
  exact inferInstance

/-- `NUM_MONTHS = 12` (src/acctAnalysisSum.py line 74). -/
def NUM_MONTHS : Int := 12

/-- The `PERIODS` dictionary (src/acctAnalysisSum.py lines 64-72): period name
to number of months; a missing key is a Python `KeyError`, modelled by
`none`. -/
def PERIODS (period_type : String) : Option Int :=
  if period_type = "monthly" then some 1
  else if period_type = "quarterly" then some 3
  else if period_type = "thirdly" then some 4
  else if period_type = "halfly" then some 6
  else if period_type = "yearly" then some 12
  else if period_type = "biyearly" then some 24
  else none

/-- `next_period_start` (src/acctAnalysisSum.py lines 100-117): branch-free
zero-based month arithmetic; `//` and `%` are Python floor division, i.e.
`Int.fdiv` / `Int.fmod`. -/
def next_period_start (start_year start_month : Int) (period_type : String) :
    Option (Int × Int) :=
  (PERIODS period_type).map fun len =>
    let end_month := start_month + len
    (start_year + (end_month - 1).fdiv NUM_MONTHS,
     (end_month - 1).fmod NUM_MONTHS + 1)

/-- `period_end` (src/acctAnalysisSum.py lines 120-132): validity check on the
period type, then one day back from the start of the next period. -/
def period_end (start_year start_month : Int) (period_type : String) :
    Option Date :=
  match PERIODS period_type with
  | none => none
  | some _ =>
    (next_period_start start_year start_month period_type).map
      fun p => Date.pred ⟨p.1, p.2, 1⟩

/-- `generate_period_boundaries` (src/acctAnalysisSum.py lines 135-138): the
list of `(start_date, end_date)` pairs for `n` consecutive periods. An invalid
period type raises inside `period_end` on the first iteration (`none`); zero
periods yield the empty list without touching `period_end`. -/
def generate_period_boundaries (start_year start_month : Int)
    (period_type : String) : Nat → Option (List (Date × Date))
  | 0 => some []
  | Nat.succ k =>
    match period_end start_year start_month period_type,
          next_period_start start_year start_month period_type with
    | some e, some p =>
      (generate_period_boundaries p.1 p.2 period_type k).map
        fun rest => (⟨start_year, start_month, 1⟩, e) :: rest
    | _, _ => none

/-- `ZERO = Decimal(0)` (src/acctAnalysisSum.py line 77); `Decimal` sums are
exact, modelled by `Rat`. -/
def ZERO : Rat := 0

/-- One ledger split as the aggregation engine sees it: the date of its parent
transaction (`trans.GetDate().date()`) and its exact decimal amount
(`gnc_numeric_to_python_decimal(split.GetAmount())`). -/
structure Split where
  date : Date
  amount : Rat
deriving DecidableEq

/-- One entry of `period_list` (src/acctAnalysisSum.py lines 255-265):
`[start_date, end_date, debits, credits, debit_sum, credit_sum, total]`.
The detail lists store the split (the Python code stores `(trans, split)`
pairs; the transaction only contributes its description at print time). -/
structure Period where
  start_date : Date
  end_date : Date
  debits : List Split
  credits : List Split
  debit_sum : Rat
  credit_sum : Rat
  total : Rat
deriving DecidableEq

instance : Inhabited Period := ⟨⟨default, default, [], [], 0, 0, 0⟩⟩

/-- The period table as built in `aa_sum_main` (src/acctAnalysisSum.py lines
255-265) from the generated boundaries, with empty detail lists and `ZERO`
sums. -/
def initial_period_list (bs : List (Date × Date)) : List Period :=
  bs.map fun b => ⟨b.1, b.2, [], [], ZERO, ZERO, ZERO⟩

/-- The binary-search loop of Python's `bisect.bisect_right` on the slice
`a[lo:hi]`: while `lo < hi`, probe `mid = (lo+hi)//2`; if `x < a[mid]` set
`hi = mid` else `lo = mid+1`; return `lo`. The loop shrinks `hi - lo` on
every iteration, so any fuel bound of at least `hi - lo` iterations yields
the loop's exit value. -/
def bisectRightAux (a : List Date) (x : Date) : Nat → Nat → Nat → Nat
  | 0, lo, _hi => lo
  | Nat.succ fuel, lo, hi =>
    if lo < hi then
      if a.getD ((lo + hi) / 2) default ≤ x then
        bisectRightAux a x fuel ((lo + hi) / 2 + 1) hi
      else bisectRightAux a x fuel lo ((lo + hi) / 2)
    else lo

/-- Python's `bisect.bisect_right(a, x)` with the default bounds `lo = 0`,
`hi = len(a)` (so `len(a)` iterations are always enough fuel). -/
def bisect_right (a : List Date) (x : Date) : Nat :=
  bisectRightAux a x a.length 0 a.length

/-- The body of the `for split in acct.GetSplitList()` loop of `get_splits`
(src/acctAnalysisSum.py lines 163-201) for one split: binary-search the
period, filter out-of-window dates (Python's short-circuit `and` never indexes
`period_list[-1]` when the first conjunct is false), run the
`assert period[1] >= trans_date >= period[0]` (`none` = `AssertionError`),
classify by sign against `ZERO` and accumulate into the matched period. -/
def assign (period_starts : List Date) (period_list : List Period)
    (sp : Split) : Option (List Period) :=
  let period_index : Int := (bisect_right period_starts sp.date : Int) - 1
  if 0 ≤ period_index ∧
      sp.date ≤ (period_list.getD (period_list.length - 1) default).end_date then
    let idx : Nat := bisect_right period_starts sp.date - 1
    let period := period_list.getD idx default
    if period.end_date ≥ sp.date ∧ sp.date ≥ period.start_date then
      let p' :=
        if sp.amount < ZERO then
          { period with
              credits := period.credits ++ [sp],
              credit_sum := period.credit_sum + sp.amount,
              total := period.total + sp.amount }
        else
          { period with
              debits := period.debits ++ [sp],
              debit_sum := period.debit_sum + sp.amount,
              total := period.total + sp.amount }
      some (period_list.set idx p')
    else none
  else some period_list

/-- `get_splits` (src/acctAnalysisSum.py lines 161-201): process every split of
the account in order, threading the mutated period table; `none` models an
uncaught `AssertionError`. -/
def get_splits (splits : List Split) (period_starts : List Date)
    (period_list : List Period) : Option (List Period) :=
  splits.foldlM (fun pl sp => assign period_starts pl sp) period_list

/-- The digit tuple `tuple(int(char) for char in str(copy.num()) if char != '-')`
of src/acctAnalysisSum.py line 93: the base-10 digits of `|num|`, most
significant first (`str(0)` is `"0"`, giving `[0]`). -/
def decDigits (n : Nat) : List Nat :=
  if n = 0 then [0] else (Nat.digits 10 n).reverse

/-- A Python `Decimal((sign, digit_tuple, exponent))`: sign bit (1 =
negative), most-significant-first digit list, power-of-ten exponent. -/
structure PyDecimal where
  sign : Nat
  digits : List Nat
  exponent : Int
deriving DecidableEq

/-- Numeric value of a most-significant-first digit list. -/
def digitsVal (ds : List Nat) : Nat :=
  Nat.ofDigits 10 ds.reverse

/-- The numeric value of a Python `Decimal`:
`(-1)^sign * digits * 10^exponent`, exact. -/
def PyDecimal.toRat (d : PyDecimal) : Rat :=
  (if d.sign = 1 then -1 else 1) * (digitsVal d.digits : Rat) *
    (10 : Rat) ^ d.exponent

/-- `gnc_numeric_to_python_decimal` (src/acctAnalysisSum.py lines 81-97) on a
`GncNumeric` with numerator `num` and denominator `denom`. The sign comes from
`negative_p()`, the digit tuple from `str(num)`, and
`exponent = int(log10(denominator))`, modelled as `⌊log10 denom⌋`
(`math.log10` in IEEE double is exact on every power of ten in range); the
decisive final check `(10 ** exponent) == denominator` is exact integer
arithmetic, exactly as in the source. `none` models the raised error
(the library `to_decimal(None)` pre-check and the `assert` both fail exactly
when the denominator is not a power of ten). -/
def gnc_numeric_to_python_decimal (num denom : Int) : Option PyDecimal :=
  let sign : Nat := if num < 0 then 1 else 0
  let digit_tuple : List Nat := decDigits num.natAbs
  let exponent : Nat := Nat.log 10 denom.toNat
  if (10 : Int) ^ exponent = denom then
    some ⟨sign, digit_tuple, -(exponent : Int)⟩
  else none

/-- A GnuCash account as the scripts consume it: a name, its own split list
(`GetSplitList()`), and its direct children. -/
inductive Acct where
  | node (name : String) (splits : List Split) (children : List Acct)

def Acct.name : Acct → String
  | .node nm _ _ => nm

def Acct.splits : Acct → List Split
  | .node _ s _ => s

def Acct.children : Acct → List Acct
  | .node _ _ c => c

/-- The external GnuCash binding `top_account.lookup_by_name(name)`, modelled
from the spec's interface (section 4.3 / section 6 "lookup-child-by-name"):
find the first direct child with the given name. -/
def lookup_by_name (top_account : Acct) (nm : String) : Option Acct :=
  top_account.children.find? (fun c => c.name == nm)

mutual

/-- The external GnuCash binding `account.get_descendants()`, modelled from the
spec (section 4.3): every account of the subtree, excluding the account
itself, children depth-first. -/
def get_descendants : Acct → List Acct
  | .node _ _ children => descendantsList children

def descendantsList : List Acct → List Acct
  | [] => []
  | c :: cs => c :: (get_descendants c ++ descendantsList cs)

end

/-- Errors `account_from_path` can raise: the unguarded `account_path[0]` on an
empty path (Python `IndexError`), or the explicit
`Exception("path " + str(original_path) + " could not be found")` carrying the
original path (the spec's `AccountNotFoundError`). -/
inductive PathError where
  | indexError
  | notFound (original : List String)
deriving DecidableEq

/-- `account_from_path` (src/acctAnalysisSum.py lines 141-158): substitute the
original path on the first call (`original_path=None` default in Python; the
callers in `aa_sum_main` pass only two arguments), split off the head segment
(raising `IndexError` on an empty path), look it up as a child, recurse while
segments remain. -/
def account_from_path (top_account : Acct) (account_path : List String)
    (original_path : Option (List String)) : Except PathError Acct :=
  let original := original_path.getD account_path
  match account_path with
  | [] => .error .indexError
  | seg :: rest =>
    match lookup_by_name top_account seg with
    | none => .error (.notFound original)
    | some account =>
      if 0 < rest.length then account_from_path account rest (some original)
      else .ok account

/-- Reference resolver: consume the whole path by repeated child lookup
(used to state what `account_from_path` returns on success). -/
def chainResolve : Acct → List String → Option Acct
  | t, [] => some t
  | t, seg :: rest => (lookup_by_name t seg).bind fun a => chainResolve a rest

/-- The descendant-aware aggregation step of `aa_sum_main`
(src/acctAnalysisSum.py lines 269-280): with no descendants, scan the account
of interest itself; otherwise scan each descendant in turn into the same
period table. -/
def aggregation_run (account_of_interest : Acct) (period_starts : List Date)
    (period_list : List Period) : Option (List Period) :=
  let descendants := get_descendants account_of_interest
  if descendants.length = 0 then
    get_splits account_of_interest.splits period_starts period_list
  else
    descendants.foldlM
      (fun pl acct => get_splits acct.splits period_starts pl) period_list

/-- Concrete data: the spec's example window, 3 monthly periods from 2020-01. -/
def wBounds : List (Date × Date) :=
  [(⟨2020, 1, 1⟩, ⟨2020, 1, 31⟩), (⟨2020, 2, 1⟩, ⟨2020, 2, 29⟩),
   (⟨2020, 3, 1⟩, ⟨2020, 3, 31⟩)]

def wPeriods : List Period := initial_period_list wBounds

def wStarts : List Date := wPeriods.map Period.start_date

/-- Concrete account tree for the subtree-aggregation claims: a parent owning
a split of 100 on 2020-01-15, with one child owning a split of 5 on
2020-01-20. -/
def cexChild : Acct := .node "Child" [⟨⟨2020, 1, 20⟩, 5⟩] []

def cexParent : Acct := .node "Parent" [⟨⟨2020, 1, 15⟩, 100⟩] [cexChild]

/-- Concrete account trees for path resolution: a root whose child "A" has no
child "B", and a root with the full chain A → B → C. -/
def treeAnoB : Acct := .node "A" [] []

def rootMissingB : Acct := .node "Root" [] [treeAnoB]

def treeC : Acct := .node "C" [] []

def treeB : Acct := .node "B" [] [treeC]

def treeA : Acct := .node "A" [] [treeB]

def rootFull : Acct := .node "Root" [] [treeA]

/-- The copied list of period start dates (src/acctAnalysisSum.py line 267):
`period_starts = [e[0] for e in period_list]`. -/
def period_starts_of (period_list : List Period) : List Date :=
  period_list.map Period.start_date

/-- The `(start_date, end_date)` frame of a period table, used to state that
the table was built over `generate_period_boundaries` output. -/
def datesOf (period_list : List Period) : List (Date × Date) :=
  period_list.map fun p => (p.start_date, p.end_date)

/-- Sum of the amounts of a list of splits. -/
def sumAmounts (l : List Split) : Rat :=
  (l.map Split.amount).sum

/-- The bookkeeping invariant of one period bucket: the debit sum is exactly
the sum of the retained debit splits (all of non-negative amount), the credit
sum exactly the sum of the retained credit splits (all negative), and
`debit_sum + credit_sum = total`. -/
def PeriodInv (p : Period) : Prop :=
  p.debit_sum = sumAmounts p.debits ∧
  p.credit_sum = sumAmounts p.credits ∧
  (∀ s ∈ p.debits, ZERO ≤ s.amount) ∧
  (∀ s ∈ p.credits, s.amount < ZERO) ∧
  p.debit_sum + p.credit_sum = p.total

instance (p : Period) : Decidable (PeriodInv p) := by
  unfold PeriodInv
  exact inferInstance

/-- Example splits: the spec's end-to-end example (+100.00 on 2020-01-15,
-40.00 on 2020-02-10, +5.00 on 2020-04-01, the last outside the window). -/
def wSplits : List Split :=
  [⟨⟨2020, 1, 15⟩, 100⟩, ⟨⟨2020, 2, 10⟩, -40⟩, ⟨⟨2020, 4, 1⟩, 5⟩]

/-- The period table `get_splits` produces from `wSplits` over `wPeriods`. -/
def wResult : List Period :=
  [⟨⟨2020, 1, 1⟩, ⟨2020, 1, 31⟩, [⟨⟨2020, 1, 15⟩, 100⟩], [], 100, 0, 100⟩,
   ⟨⟨2020, 2, 1⟩, ⟨2020, 2, 29⟩, [], [⟨⟨2020, 2, 10⟩, -40⟩], 0, -40, -40⟩,
   ⟨⟨2020, 3, 1⟩, ⟨2020, 3, 31⟩, [], [], 0, 0, 0⟩]

/-- The period table the descendant-branch aggregation actually produces on
the `cexParent` tree (only the child's split of 5 is scanned). -/
def cexResultDesc : List Period :=
  [⟨⟨2020, 1, 1⟩, ⟨2020, 1, 31⟩, [⟨⟨2020, 1, 20⟩, 5⟩], [], 5, 0, 5⟩,
   ⟨⟨2020, 2, 1⟩, ⟨2020, 2, 29⟩, [], [], 0, 0, 0⟩,
   ⟨⟨2020, 3, 1⟩, ⟨2020, 3, 31⟩, [], [], 0, 0, 0⟩]

/-- The period table a flat sum over the parent's own splits plus every
descendant's splits would produce on the `cexParent` tree. -/
def cexResultFlat : List Period :=
  [⟨⟨2020, 1, 1⟩, ⟨2020, 1, 31⟩,
    [⟨⟨2020, 1, 15⟩, 100⟩, ⟨⟨2020, 1, 20⟩, 5⟩], [], 105, 0, 105⟩,
   ⟨⟨2020, 2, 1⟩, ⟨2020, 2, 29⟩, [], [], 0, 0, 0⟩,
   ⟨⟨2020, 3, 1⟩, ⟨2020, 3, 31⟩, [], [], 0, 0, 0⟩]

/-! ## Order lemmas for the date model -/

theorem Date.le_def {a b : Date} :
    a ≤ b ↔ (a.year < b.year ∨ (a.year = b.year ∧
      (a.month < b.month ∨ (a.month = b.month ∧ a.day ≤ b.day)))) := by
  change Date.ble a b = true ↔ _
  simp [Date.ble]

theorem Date.lt_def {a b : Date} :
    a < b ↔ (a.year < b.year ∨ (a.year = b.year ∧
      (a.month < b.month ∨ (a.month = b.month ∧ a.day < b.day)))) := by
  change Date.blt a b = true ↔ _
  simp [Date.blt]

theorem Date.le_refl (a : Date) : a ≤ a := by
  rw [Date.le_def]; omega

theorem Date.le_trans {a b c : Date} (h1 : a ≤ b) (h2 : b ≤ c) : a ≤ c := by
  rw [Date.le_def] at h1 h2 ⊢; omega

theorem Date.lt_of_le_of_lt {a b c : Date} (h1 : a ≤ b) (h2 : b < c) : a < c := by
  rw [Date.le_def] at h1; rw [Date.lt_def] at h2 ⊢; omega

theorem Date.lt_of_lt_of_le {a b c : Date} (h1 : a < b) (h2 : b ≤ c) : a < c := by
  rw [Date.lt_def] at h1 ⊢; rw [Date.le_def] at h2; omega

theorem Date.lt_trans {a b c : Date} (h1 : a < b) (h2 : b < c) : a < c := by
  rw [Date.lt_def] at h1 h2 ⊢; omega

theorem Date.le_of_lt {a b : Date} (h : a < b) : a ≤ b := by
  rw [Date.lt_def] at h; rw [Date.le_def]; omega

theorem Date.not_lt {a b : Date} : ¬a < b ↔ b ≤ a := by
  rw [Date.lt_def, Date.le_def]; omega

theorem daysInMonth_pos (y m : Int) : 1 ≤ daysInMonth y m := by
  unfold daysInMonth
  split
  · split <;> omega
  · split <;> omega

theorem Date.lt_succ (d : Date) : d < Date.succ d := by
  unfold Date.succ
  split
  · rw [Date.lt_def]; simp
  · split
    · rw [Date.lt_def]; simp
    · rw [Date.lt_def]; simp

/-! ## Period-length table -/

theorem PERIODS_pos {pt : String} {len : Int} (h : PERIODS pt = some len) :
    0 < len := by
  unfold PERIODS at h
  split_ifs at h
  all_goals first
    | (injection h with h2; omega)
    | exact Option.noConfusion h

/-- C5: `next_period_start` advances the month by the period length with
branch-free zero-based month arithmetic: for every year, every month in 1..12,
and every period length the `PERIODS` table supplies (all of which are
positive), the result is
`(year + (month - 1 + length) // 12, ((month - 1 + length) % 12) + 1)` with
Python floor division; in particular
`next_period_start(2020, 11, quarterly=3) = (2021, 2)`. -/
theorem next_period_start_formula (y m len : Int) (pt : String)
    (hpt : PERIODS pt = some len) (hm1 : 1 ≤ m) (hm2 : m ≤ 12) :
    (0 < len ∧
      next_period_start y m pt =
        some (y + (m - 1 + len).fdiv 12, (m - 1 + len).fmod 12 + 1)) ∧
    next_period_start 2020 11 "quarterly" = some (2021, 2) := by
  refine ⟨⟨PERIODS_pos hpt, ?_⟩, by decide⟩
  have e1 : m + len - 1 = m - 1 + len := by ring
  simp [next_period_start, NUM_MONTHS, hpt, e1]

theorem next_period_start_formula_witness :
    (0 < (3 : Int) ∧
      next_period_start 2020 11 "quarterly" =
        some ((2020 : Int) + ((11 : Int) - 1 + 3).fdiv 12,
              ((11 : Int) - 1 + 3).fmod 12 + 1)) ∧
    next_period_start 2020 11 "quarterly" = some (2021, 2) :=
  next_period_start_formula 2020 11 3 "quarterly" (by decide) (by decide)
    (by decide)

/-- C10: calling `account_from_path` with an empty path hits the unguarded
`account_path[0]` and raises `IndexError` before any child lookup, for every
tree and every value of the `original_path` argument. -/
theorem account_from_path_nil_raises_indexError (t : Acct)
    (o : Option (List String)) :
    account_from_path t [] o = Except.error PathError.indexError := rfl

/-! ## Exact decimal conversion -/

theorem digitsVal_decDigits (n : Nat) : digitsVal (decDigits n) = n := by
  unfold digitsVal decDigits
  split
  · simp only [List.reverse_cons, List.reverse_nil, List.nil_append]
    rename_i hn
    subst hn
    norm_num [Nat.ofDigits]
  · rw [List.reverse_reverse, Nat.ofDigits_digits]

theorem toNat_pow_ten (k : Nat) : ((10 : Int) ^ k).toNat = 10 ^ k := by
  rw [show ((10 : Int) ^ k) = (((10 ^ k : Nat) : Int)) by push_cast; ring]
  exact Int.toNat_natCast _

/-- C7: converting the rational `num / 10^k` round-trips: the conversion
succeeds, the returned decimal carries the sign of the numerator, the decimal
digits of its magnitude, and scale `k`, its exact value times `10^k`
reconstructs the numerator, and a zero numerator yields the zero decimal for
every `k`. -/
theorem gnc_numeric_round_trip (num : Int) (k : Nat) :
    ∃ d : PyDecimal,
      gnc_numeric_to_python_decimal num ((10 : Int) ^ k) = some d ∧
      d.sign = (if num < 0 then 1 else 0) ∧
      d.digits = decDigits num.natAbs ∧
      d.exponent = -(k : Int) ∧
      d.toRat * (10 : Rat) ^ k = (num : Rat) ∧
      (num = 0 → d.toRat = 0) := by
  have hlog : Nat.log 10 (((10 : Int) ^ k).toNat) = k := by
    rw [toNat_pow_ten]
    exact Nat.log_pow (by norm_num) k
  refine ⟨⟨if num < 0 then 1 else 0, decDigits num.natAbs, -(k : Int)⟩, ?_, rfl,
    rfl, rfl, ?_, ?_⟩
  · unfold gnc_numeric_to_python_decimal
    rw [hlog]
    simp
  · have hz : ((10 : Rat) ^ (-(k : Int))) * (10 : Rat) ^ k = 1 := by
      rw [← zpow_natCast (10 : Rat) k, ← zpow_add₀ (by norm_num : (10 : Rat) ≠ 0)]
      norm_num
    unfold PyDecimal.toRat
    simp only [digitsVal_decDigits]
    rcases lt_or_le num 0 with hneg | hpos
    · rw [if_pos hneg, if_pos rfl]
      have habs : ((num.natAbs : Nat) : Rat) = -(num : Rat) := by
        rw [Int.cast_natAbs]
        have h1 : |num| = -num := abs_of_neg hneg
        exact_mod_cast h1
      rw [habs]
      calc (-1 : Rat) * -(num : Rat) * (10 : Rat) ^ (-(k : Int)) * (10 : Rat) ^ k
          = (num : Rat) * ((10 : Rat) ^ (-(k : Int)) * (10 : Rat) ^ k) := by ring
        _ = (num : Rat) := by rw [hz]; ring
    · rw [if_neg (not_lt.mpr hpos), if_neg (by norm_num)]
      have habs : ((num.natAbs : Nat) : Rat) = (num : Rat) := by
        rw [Int.cast_natAbs]
        have h1 : |num| = num := abs_of_nonneg hpos
        exact_mod_cast h1
      rw [habs]
      calc (1 : Rat) * (num : Rat) * (10 : Rat) ^ (-(k : Int)) * (10 : Rat) ^ k
          = (num : Rat) * ((10 : Rat) ^ (-(k : Int)) * (10 : Rat) ^ k) := by ring
        _ = (num : Rat) := by rw [hz]; ring
  · intro h0
    subst h0
    unfold PyDecimal.toRat
    simp [digitsVal_decDigits]

theorem gnc_numeric_round_trip_witness :
    ∃ d : PyDecimal,
      gnc_numeric_to_python_decimal (-1234) ((10 : Int) ^ 2) = some d ∧
      d.sign = (if (-1234 : Int) < 0 then 1 else 0) ∧
      d.digits = decDigits (-1234 : Int).natAbs ∧
      d.exponent = -((2 : Nat) : Int) ∧
      d.toRat * (10 : Rat) ^ (2 : Nat) = ((-1234 : Int) : Rat) ∧
      ((-1234 : Int) = 0 → d.toRat = 0) :=
  gnc_numeric_round_trip (-1234) 2

/-- C8: the decimal conversion fails (raises) exactly when the denominator is
not an integer power of ten — the decisive check `(10 ** exponent) ==
denominator` is exact integer arithmetic, so no value of the log-derived
exponent can make a non-power-of-ten denominator pass; e.g. denominator 3
fails. -/
theorem gnc_numeric_fails_iff_not_pow10 (num denom : Int) :
    (gnc_numeric_to_python_decimal num denom = none ↔
      ¬∃ k : Nat, denom = (10 : Int) ^ k) ∧
    gnc_numeric_to_python_decimal 7 3 = none := by
  constructor
  · by_cases hcheck : (10 : Int) ^ (Nat.log 10 denom.toNat) = denom
    · apply iff_of_false
      · simp [gnc_numeric_to_python_decimal, hcheck]
      · exact not_not_intro ⟨Nat.log 10 denom.toNat, hcheck.symm⟩
    · apply iff_of_true
      · simp [gnc_numeric_to_python_decimal, hcheck]
      · rintro ⟨k, hk⟩
        apply hcheck
        subst hk
        rw [toNat_pow_ten, Nat.log_pow (by norm_num)]
  · have hl : Nat.log 10 3 = 0 := Nat.log_eq_zero_iff.mpr (by norm_num)
    simp [gnc_numeric_to_python_decimal, hl]

/-! ## Account path resolution -/

theorem account_from_path_orig (path : List String) :
    ∀ (t : Acct) (o : Option (List String)), path ≠ [] →
      account_from_path t path o =
        match chainResolve t path with
        | some a => Except.ok a
        | none => Except.error (PathError.notFound (o.getD path)) := by
  induction path with
  | nil => intro t o h; exact absurd rfl h
  | cons seg rest ih =>
    intro t o _
    unfold account_from_path
    cases hl : lookup_by_name t seg with
    | none => simp [chainResolve, hl]
    | some a =>
      cases rest with
      | nil => simp [chainResolve, hl]
      | cons seg2 rest2 =>
        simp only [chainResolve, hl, Option.some_bind, List.length_cons,
          Option.getD_some]
        rw [if_pos (by omega : 0 < rest2.length + 1),
          ih a (some (o.getD (seg :: seg2 :: rest2))) (by simp)]
        simp [chainResolve]

/-- C9: for every tree and non-empty path, `account_from_path` fails with the
path-not-found error carrying the original full path as soon as any segment
fails to resolve, and returns the handle reached by consuming the whole path
when every segment resolves. -/
theorem account_from_path_spec (t : Acct) (path : List String)
    (h : path ≠ []) :
    account_from_path t path none =
      match chainResolve t path with
      | some a => Except.ok a
      | none => Except.error (PathError.notFound path) := by
  rw [account_from_path_orig path t none h]
  rfl

theorem account_from_path_spec_witness :
    account_from_path rootMissingB ["A", "B", "C"] none =
        Except.error (PathError.notFound ["A", "B", "C"]) ∧
      account_from_path rootFull ["A", "B", "C"] none = Except.ok treeC := by
  constructor
  · rw [account_from_path_spec rootMissingB ["A", "B", "C"] (by decide)]
    rfl
  · rw [account_from_path_spec rootFull ["A", "B", "C"] (by decide)]
    rfl

/-! ## Period scheduler -/

theorem next_period_start_bounds {y m len : Int} {pt : String} {y' m' : Int}
    (hpt : PERIODS pt = some len)
    (h : next_period_start y m pt = some (y', m')) :
    12 * y' + m' = 12 * y + m + len ∧ 1 ≤ m' ∧ m' ≤ 12 := by
  rw [next_period_start, hpt] at h
  simp only [NUM_MONTHS, Option.map_some', Option.some.injEq,
    Prod.mk.injEq] at h
  obtain ⟨hy, hm⟩ := h
  have hq := Int.fdiv_add_fmod (m + len - 1) 12
  have h0 := Int.fmod_nonneg' (m + len - 1) (by norm_num : (0 : Int) < 12)
  have h1 := Int.fmod_lt_of_pos (m + len - 1) (by norm_num : (0 : Int) < 12)
  omega

theorem succ_pred_first (y m : Int) (h1 : 1 ≤ m) (h2 : m ≤ 12) :
    Date.succ (Date.pred ⟨y, m, 1⟩) = ⟨y, m, 1⟩ := by
  by_cases hm : 1 < m
  · have hpred : Date.pred ⟨y, m, 1⟩ = ⟨y, m - 1, daysInMonth y (m - 1)⟩ := by
      simp [Date.pred, hm]
    rw [hpred]
    unfold Date.succ
    dsimp only
    rw [if_neg (lt_irrefl _), if_pos (by omega : m - 1 < 12)]
    rw [Date.mk.injEq]
    refine ⟨rfl, by omega, rfl⟩
  · have hm1 : m = 1 := by omega
    subst hm1
    have hpred : Date.pred ⟨y, 1, 1⟩ = ⟨y - 1, 12, 31⟩ := by
      simp [Date.pred]
    rw [hpred]
    have hd : daysInMonth (y - 1) 12 = 31 := by simp [daysInMonth]
    unfold Date.succ
    dsimp only
    rw [hd, if_neg (lt_irrefl _), if_neg (lt_irrefl _)]
    rw [Date.mk.injEq]
    refine ⟨by omega, rfl, rfl⟩

theorem first_le_pred_first {y m y' m' : Int} (hm1 : 1 ≤ m) (hm2 : m ≤ 12)
    (hm1' : 1 ≤ m') (hm2' : m' ≤ 12) (hlt : 12 * y + m < 12 * y' + m') :
    (⟨y, m, 1⟩ : Date) ≤ Date.pred ⟨y', m', 1⟩ := by
  by_cases hm : 1 < m'
  · have hpred : Date.pred ⟨y', m', 1⟩ = ⟨y', m' - 1, daysInMonth y' (m' - 1)⟩ := by
      simp [Date.pred, hm]
    rw [hpred, Date.le_def]
    dsimp only
    have := daysInMonth_pos y' (m' - 1)
    omega
  · have : m' = 1 := by omega
    subst this
    have hpred : Date.pred ⟨y', 1, 1⟩ = ⟨y' - 1, 12, 31⟩ := by
      simp [Date.pred]
    rw [hpred, Date.le_def]
    dsimp only
    omega

theorem pred_first_shape (y' m' : Int) (h1 : 1 ≤ m') (h2 : m' ≤ 12) :
    ValidDate (Date.pred ⟨y', m', 1⟩) ∧
      (Date.pred ⟨y', m', 1⟩).day =
        daysInMonth (Date.pred ⟨y', m', 1⟩).year (Date.pred ⟨y', m', 1⟩).month := by
  by_cases hm : 1 < m'
  · have hpred : Date.pred ⟨y', m', 1⟩ = ⟨y', m' - 1, daysInMonth y' (m' - 1)⟩ := by
      simp [Date.pred, hm]
    rw [hpred]
    refine ⟨⟨?_, ?_, ?_, ?_⟩, rfl⟩ <;> dsimp only
    · omega
    · omega
    · exact daysInMonth_pos _ _
    · exact le_refl _
  · have : m' = 1 := by omega
    subst this
    have hpred : Date.pred ⟨y', 1, 1⟩ = ⟨y' - 1, 12, 31⟩ := by
      simp [Date.pred]
    rw [hpred]
    have hd : daysInMonth (y' - 1) 12 = 31 := by simp [daysInMonth]
    refine ⟨⟨?_, ?_, ?_, ?_⟩, ?_⟩ <;> dsimp only
    · omega
    · omega
    · omega
    · rw [hd]
    · rw [hd]

theorem generate_period_boundaries_props {pt : String} {len : Int}
    (hpt : PERIODS pt = some len) :
    ∀ (n : Nat) (y m : Int) (bs : List (Date × Date)),
      1 ≤ m → m ≤ 12 →
      generate_period_boundaries y m pt n = some bs →
      bs.length = n ∧
      (∀ hd ∈ bs.head?, hd.1 = (⟨y, m, 1⟩ : Date)) ∧
      List.Chain' (fun a b => Date.succ a.2 = b.1) bs ∧
      (∀ p ∈ bs, p.1 ≤ p.2 ∧ p.1.day = 1 ∧ 1 ≤ p.1.month ∧ p.1.month ≤ 12 ∧
        ValidDate p.2 ∧ p.2.day = daysInMonth p.2.year p.2.month) ∧
      List.Chain' (fun a b : Date × Date => a.1 < b.1) bs := by
  intro n
  induction n with
  | zero =>
    intro y m bs _ _ hgen
    simp only [generate_period_boundaries, Option.some.injEq] at hgen
    subst hgen
    simp
  | succ k ih =>
    intro y m bs hm1 hm2 hgen
    obtain ⟨p, hp⟩ : ∃ p, next_period_start y m pt = some p := by
      rw [next_period_start, hpt]
      exact ⟨_, rfl⟩
    obtain ⟨y2, m2⟩ := p
    have hpe : period_end y m pt = some (Date.pred ⟨y2, m2, 1⟩) := by
      unfold period_end
      rw [hpt]
      dsimp only
      rw [hp]
      rfl
    simp only [generate_period_boundaries, hpe, hp] at hgen
    cases hrest : generate_period_boundaries y2 m2 pt k with
    | none => rw [hrest] at hgen; exact Option.noConfusion hgen
    | some rest =>
      rw [hrest] at hgen
      simp only [Option.map_some', Option.some.injEq] at hgen
      subst hgen
      obtain ⟨hidx, hb1, hb2⟩ := next_period_start_bounds hpt hp
      have hlen : 0 < len := PERIODS_pos hpt
      obtain ⟨ihlen, ihhead, ihchain, ihmem, ihlt⟩ := ih y2 m2 rest hb1 hb2 hrest
      refine ⟨by simp [ihlen], by simp, ?_, ?_, ?_⟩
      · rw [List.chain'_cons']
        refine ⟨?_, ihchain⟩
        intro b hb
        rw [ihhead b hb]
        exact succ_pred_first y2 m2 hb1 hb2
      · intro q hq
        rcases List.mem_cons.mp hq with hq | hq
        · subst hq
          dsimp only
          obtain ⟨hv, hde⟩ := pred_first_shape y2 m2 hb1 hb2
          exact ⟨first_le_pred_first hm1 hm2 hb1 hb2 (by omega), rfl, hm1, hm2,
            hv, hde⟩
        · exact ihmem q hq
      · rw [List.chain'_cons']
        refine ⟨?_, ihlt⟩
        intro b hb
        rw [ihhead b hb]
        dsimp only
        rw [Date.lt_def]
        dsimp only
        omega

/-- C4: for all valid `(start_year, start_month, period_type, count)`,
`generate_period_boundaries` yields exactly `count` periods, the first
starting at `(start_year, start_month)`, and the sequence is contiguous and
non-overlapping: every period's end date plus one day equals the next
period's start date. -/
theorem generate_period_boundaries_contiguous (y m len : Int) (pt : String)
    (n : Nat) (bs : List (Date × Date))
    (hpt : PERIODS pt = some len) (hm1 : 1 ≤ m) (hm2 : m ≤ 12)
    (hgen : generate_period_boundaries y m pt n = some bs) :
    bs.length = n ∧
    (0 < n → (bs.getD 0 default).1 = (⟨y, m, 1⟩ : Date)) ∧
    (∀ i, i + 1 < n →
      Date.succ (bs.getD i default).2 = (bs.getD (i + 1) default).1) := by
  obtain ⟨hlen, hhead, hchain, -, -⟩ :=
    generate_period_boundaries_props hpt n y m bs hm1 hm2 hgen
  refine ⟨hlen, ?_, ?_⟩
  · intro hn
    cases bs with
    | nil => rw [List.length_nil] at hlen; omega
    | cons b bt =>
      have hb := hhead b (by simp)
      simpa using hb
  · intro i hi
    have h2 : i < bs.length := by omega
    have h3 : i + 1 < bs.length := by omega
    have hcg := List.chain'_iff_get.mp hchain i (by omega)
    rw [List.getD_eq_getElem?_getD, List.getD_eq_getElem?_getD,
      List.getElem?_eq_getElem h2, List.getElem?_eq_getElem h3]
    simpa [List.get_eq_getElem] using hcg

theorem wBounds_eval :
    generate_period_boundaries 2020 1 "monthly" 3 = some wBounds := by
  decide

theorem generate_period_boundaries_contiguous_witness :
    wBounds.length = 3 ∧
    (0 < 3 → (wBounds.getD 0 default).1 = (⟨2020, 1, 1⟩ : Date)) ∧
    (∀ i, i + 1 < 3 →
      Date.succ (wBounds.getD i default).2 = (wBounds.getD (i + 1) default).1) :=
  generate_period_boundaries_contiguous 2020 1 1 "monthly" 3 wBounds
    (by decide) (by decide) (by decide) wBounds_eval

/-! ## Binary search -/

theorem Date.not_le {a b : Date} : ¬a ≤ b ↔ b < a := by
  rw [Date.le_def, Date.lt_def]
  omega

theorem pairwise_le_getD {a : List Date}
    (hs : List.Pairwise (fun p q : Date => p ≤ q) a)
    {i j : Nat} (hij : i ≤ j) (hj : j < a.length) :
    a.getD i default ≤ a.getD j default := by
  rw [List.getD_eq_getElem?_getD, List.getD_eq_getElem?_getD,
    List.getElem?_eq_getElem (by omega : i < a.length),
    List.getElem?_eq_getElem hj]
  rcases Nat.eq_or_lt_of_le hij with rfl | hlt
  · exact Date.le_refl _
  · have hg := List.pairwise_iff_get.mp hs ⟨i, by omega⟩ ⟨j, hj⟩ hlt
    simpa [List.get_eq_getElem] using hg

theorem bisectRightAux_spec (a : List Date) (x : Date)
    (hs : List.Pairwise (fun p q : Date => p ≤ q) a) :
    ∀ (fuel lo hi : Nat), hi - lo ≤ fuel → lo ≤ hi → hi ≤ a.length →
      (∀ j, j < lo → a.getD j default ≤ x) →
      (∀ j, hi ≤ j → j < a.length → x < a.getD j default) →
      (lo ≤ bisectRightAux a x fuel lo hi ∧
        bisectRightAux a x fuel lo hi ≤ hi) ∧
      (∀ j, j < bisectRightAux a x fuel lo hi → a.getD j default ≤ x) ∧
      (∀ j, bisectRightAux a x fuel lo hi ≤ j → j < a.length →
        x < a.getD j default) := by
  intro fuel
  induction fuel with
  | zero =>
    intro lo hi hfuel hlohi hhi hlow hhigh
    have heq : lo = hi := by omega
    subst heq
    exact ⟨⟨le_refl _, le_refl _⟩, hlow, fun j hj hj2 => hhigh j hj hj2⟩
  | succ fuel ih =>
    intro lo hi hfuel hlohi hhi hlow hhigh
    by_cases h : lo < hi
    · rw [bisectRightAux, if_pos h]
      have hmid1 : lo ≤ (lo + hi) / 2 := by omega
      have hmid2 : (lo + hi) / 2 < hi := by omega
      by_cases hc : a.getD ((lo + hi) / 2) default ≤ x
      · rw [if_pos hc]
        have hlow' : ∀ j, j < (lo + hi) / 2 + 1 → a.getD j default ≤ x := by
          intro j hj
          rcases Nat.lt_or_ge j lo with hjlo | hjlo
          · exact hlow j hjlo
          · exact Date.le_trans (pairwise_le_getD hs (by omega) (by omega)) hc
        obtain ⟨⟨hr1, hr2⟩, hr3, hr4⟩ :=
          ih ((lo + hi) / 2 + 1) hi (by omega) (by omega) hhi hlow' hhigh
        exact ⟨⟨by omega, hr2⟩, hr3, hr4⟩
      · rw [if_neg hc]
        have hx : x < a.getD ((lo + hi) / 2) default := Date.not_le.mp hc
        have hhigh' : ∀ j, (lo + hi) / 2 ≤ j → j < a.length →
            x < a.getD j default := by
          intro j hj hj2
          exact Date.lt_of_lt_of_le hx (pairwise_le_getD hs hj hj2)
        obtain ⟨⟨hr1, hr2⟩, hr3, hr4⟩ :=
          ih lo ((lo + hi) / 2) (by omega) (by omega) (by omega) hlow hhigh'
        exact ⟨⟨hr1, by omega⟩, hr3, hr4⟩
    · rw [bisectRightAux, if_neg h]
      exact ⟨⟨le_refl _, by omega⟩, hlow, fun j hj hj2 => hhigh j (by omega) hj2⟩

theorem bisect_right_spec (a : List Date) (x : Date)
    (hs : List.Pairwise (fun p q : Date => p ≤ q) a) :
    bisect_right a x ≤ a.length ∧
    (∀ j, j < bisect_right a x → a.getD j default ≤ x) ∧
    (∀ j, bisect_right a x ≤ j → j < a.length → x < a.getD j default) := by
  obtain ⟨⟨h1, h2⟩, h3, h4⟩ := bisectRightAux_spec a x hs a.length 0 a.length
    (by omega) (by omega) (le_refl _)
    (fun j hj => absurd hj (Nat.not_lt_zero j))
    (fun j hj hj2 => absurd hj2 (by omega))
  exact ⟨h2, h3, h4⟩

/-! ## Split aggregation: the bookkeeping invariant -/

theorem date_le_eq (a b : Date) : (a ≤ b) = (Date.ble a b = true) := rfl

theorem date_lt_eq (a b : Date) : (a < b) = (Date.blt a b = true) := rfl

theorem sumAmounts_snoc (l : List Split) (sp : Split) :
    sumAmounts (l ++ [sp]) = sumAmounts l + sp.amount := by
  simp [sumAmounts]

theorem PeriodInv_default : PeriodInv default := by
  show PeriodInv ⟨default, default, [], [], 0, 0, 0⟩
  refine ⟨by simp [sumAmounts], by simp [sumAmounts], ?_, ?_, by norm_num⟩
  · intro s hs
    exact absurd hs (List.not_mem_nil s)
  · intro s hs
    exact absurd hs (List.not_mem_nil s)

theorem PeriodInv_update (p : Period) (sp : Split) (hp : PeriodInv p) :
    PeriodInv
      (if sp.amount < ZERO then
        { p with
            credits := p.credits ++ [sp],
            credit_sum := p.credit_sum + sp.amount,
            total := p.total + sp.amount }
      else
        { p with
            debits := p.debits ++ [sp],
            debit_sum := p.debit_sum + sp.amount,
            total := p.total + sp.amount }) := by
  obtain ⟨h1, h2, h3, h4, h5⟩ := hp
  by_cases hneg : sp.amount < ZERO
  · rw [if_pos hneg]
    refine ⟨h1, ?_, h3, ?_, ?_⟩ <;> dsimp only
    · rw [sumAmounts_snoc, h2]
    · intro s hs
      rcases List.mem_append.mp hs with hs | hs
      · exact h4 s hs
      · rw [List.mem_singleton.mp hs]
        exact hneg
    · rw [← h5]
      ring
  · rw [if_neg hneg]
    refine ⟨?_, h2, ?_, h4, ?_⟩ <;> dsimp only
    · rw [sumAmounts_snoc, h1]
    · intro s hs
      rcases List.mem_append.mp hs with hs | hs
      · exact h3 s hs
      · rw [List.mem_singleton.mp hs]
        exact not_lt.mp hneg
    · rw [← h5]
      ring

theorem assign_getD_inv {pl : List Period} (hinv : ∀ p ∈ pl, PeriodInv p)
    (idx : Nat) : PeriodInv (pl.getD idx default) := by
  rcases Nat.lt_or_ge idx pl.length with hlt | hge
  · rw [List.getD_eq_getElem?_getD, List.getElem?_eq_getElem hlt]
    exact hinv _ (List.getElem_mem hlt)
  · rw [List.getD_eq_getElem?_getD, List.getElem?_eq_none hge,
      Option.getD_none]
    exact PeriodInv_default

theorem assign_preserves_inv {starts : List Date} {pl pl' : List Period}
    {sp : Split} (hinv : ∀ p ∈ pl, PeriodInv p)
    (h : assign starts pl sp = some pl') : ∀ p ∈ pl', PeriodInv p := by
  simp only [assign] at h
  split at h
  · split at h
    · rw [Option.some.injEq] at h
      subst h
      intro q hq
      rcases List.mem_or_eq_of_mem_set hq with hq | rfl
      · exact hinv q hq
      · exact PeriodInv_update _ sp (assign_getD_inv hinv _)
    · exact Option.noConfusion h
  · rw [Option.some.injEq] at h
    subst h
    exact hinv

/-- C3: after any sequence of `get_splits` assignments over a period table
whose periods satisfy the bookkeeping invariant (as the freshly built table
does), every period still satisfies it: `debit_sum + credit_sum = total`,
with `debit_sum` the sum of exactly the assigned splits of non-negative
amount and `credit_sum` the sum of exactly the assigned negative ones. -/
theorem get_splits_sum_invariant (splits : List Split) (starts : List Date)
    (pl pl' : List Period) (hinv : ∀ p ∈ pl, PeriodInv p)
    (h : get_splits splits starts pl = some pl') :
    ∀ p ∈ pl', PeriodInv p ∧ p.debit_sum + p.credit_sum = p.total := by
  suffices hs : ∀ p ∈ pl', PeriodInv p by
    intro p hp
    exact ⟨hs p hp, (hs p hp).2.2.2.2⟩
  induction splits generalizing pl with
  | nil =>
    rw [get_splits, List.foldlM_nil] at h
    simp only [Option.pure_def, Option.some.injEq] at h
    subst h
    exact hinv
  | cons sp rest ih =>
    rw [get_splits, List.foldlM_cons] at h
    cases ha : assign starts pl sp with
    | none => rw [ha] at h; exact Option.noConfusion h
    | some pm =>
      rw [ha] at h
      simp only [Option.bind_eq_bind, Option.some_bind] at h
      exact ih pm (assign_preserves_inv hinv ha) h

theorem get_splits_result_eval :
    get_splits wSplits wStarts wPeriods = some wResult := by
  simp +decide [get_splits, assign, wSplits, wStarts, wPeriods, wBounds,
    wResult, initial_period_list, ZERO, bisect_right, bisectRightAux,
    List.foldlM_cons, List.foldlM_nil]

theorem get_splits_sum_invariant_witness :
    PeriodInv (wResult.getD 0 default) ∧
      (wResult.getD 0 default).debit_sum + (wResult.getD 0 default).credit_sum =
        (wResult.getD 0 default).total :=
  get_splits_sum_invariant wSplits wStarts wPeriods wResult
    (by norm_num [wPeriods, wBounds, initial_period_list, PeriodInv,
      sumAmounts, ZERO])
    get_splits_result_eval (wResult.getD 0 default) (by simp [wResult])

/-! ## Out-of-window splits -/

theorem assign_skips_out_of_window (starts : List Date) (pl : List Period)
    (sp : Split) (hs : List.Pairwise (fun p q : Date => p ≤ q) starts)
    (hout : sp.date < starts.getD 0 default ∨
      (pl.getD (pl.length - 1) default).end_date < sp.date) :
    assign starts pl sp = some pl := by
  rcases hout with hlt | hgt
  · have hz : bisect_right starts sp.date = 0 := by
      by_contra hnz
      have h1 : 0 < bisect_right starts sp.date := Nat.pos_of_ne_zero hnz
      have h2 := (bisect_right_spec starts sp.date hs).2.1 0 h1
      exact absurd h2 (Date.not_le.mpr hlt)
    have hnot : ¬(0 ≤ (bisect_right starts sp.date : Int) - 1 ∧
        sp.date ≤ (pl.getD (pl.length - 1) default).end_date) := by
      rw [hz]
      rintro ⟨hc, -⟩
      norm_num at hc
    simp only [assign]
    rw [if_neg hnot]
  · have hnot : ¬(0 ≤ (bisect_right starts sp.date : Int) - 1 ∧
        sp.date ≤ (pl.getD (pl.length - 1) default).end_date) := by
      rintro ⟨-, hc⟩
      exact absurd hc (Date.not_le.mpr hgt)
    simp only [assign]
    rw [if_neg hnot]

/-- C6: every split dated before the first period's start date or after the
last period's end date is silently excluded by `get_splits`: no error is
raised (the result is `some`), nothing is appended to any detail list, and no
sum changes — the period table comes back unchanged. -/
theorem get_splits_excludes_out_of_window (splits : List Split)
    (starts : List Date) (pl : List Period)
    (hs : List.Pairwise (fun p q : Date => p ≤ q) starts)
    (hout : ∀ sp ∈ splits, sp.date < starts.getD 0 default ∨
      (pl.getD (pl.length - 1) default).end_date < sp.date) :
    get_splits splits starts pl = some pl := by
  induction splits with
  | nil => rfl
  | cons sp rest ih =>
    rw [get_splits, List.foldlM_cons,
      assign_skips_out_of_window starts pl sp hs
        (hout sp (List.mem_cons_self sp rest))]
    simp only [Option.bind_eq_bind, Option.some_bind]
    exact ih fun q hq => hout q (List.mem_cons_of_mem sp hq)

theorem get_splits_excludes_out_of_window_witness :
    get_splits [⟨⟨2019, 12, 31⟩, 7⟩] wStarts wPeriods = some wPeriods :=
  get_splits_excludes_out_of_window [⟨⟨2019, 12, 31⟩, 7⟩] wStarts wPeriods
    (by decide) (by decide)

/-! ## Locating the containing period -/

theorem Date.lt_irrefl (a : Date) : ¬a < a := by
  rw [Date.lt_def]
  omega

/-- A valid date strictly before the day after a month's last day is at most
that last day. -/
theorem le_of_lt_succ_month_end {d e : Date} (hd : ValidDate d)
    (he : ValidDate e) (heday : e.day = daysInMonth e.year e.month)
    (h : d < Date.succ e) : d ≤ e := by
  obtain ⟨hd1, hd2, hd3, hd4⟩ := hd
  obtain ⟨he1, he2, he3, he4⟩ := he
  unfold Date.succ at h
  rw [if_neg (by rw [heday]; exact lt_irrefl _)] at h
  by_cases hm : e.month < 12
  · rw [if_pos hm] at h
    rw [Date.lt_def] at h
    dsimp only at h
    rw [Date.le_def]
    by_cases hyy : d.year = e.year
    · by_cases hmm : d.month = e.month
      · have hdd : d.day ≤ e.day := by
          rw [hyy, hmm] at hd4
          omega
        omega
      · omega
    · omega
  · rw [if_neg hm] at h
    rw [Date.lt_def] at h
    dsimp only at h
    rw [Date.le_def]
    by_cases hyy : d.year = e.year
    · by_cases hmm : d.month = e.month
      · have hdd : d.day ≤ e.day := by
          rw [hyy, hmm] at hd4
          omega
        omega
      · omega
    · omega

theorem datesOf_length (pl : List Period) : (datesOf pl).length = pl.length := by
  simp [datesOf]

theorem datesOf_fst {pl : List Period} {i : Nat} (hi : i < pl.length) :
    ((datesOf pl).getD i default).1 = (pl.getD i default).start_date := by
  rw [List.getD_eq_getElem?_getD, List.getD_eq_getElem?_getD,
    List.getElem?_eq_getElem (by simpa [datesOf] using hi),
    List.getElem?_eq_getElem hi]
  simp [datesOf]

theorem datesOf_snd {pl : List Period} {i : Nat} (hi : i < pl.length) :
    ((datesOf pl).getD i default).2 = (pl.getD i default).end_date := by
  rw [List.getD_eq_getElem?_getD, List.getD_eq_getElem?_getD,
    List.getElem?_eq_getElem (by simpa [datesOf] using hi),
    List.getElem?_eq_getElem hi]
  simp [datesOf]

theorem period_starts_of_datesOf (pl : List Period) :
    period_starts_of pl = (datesOf pl).map Prod.fst := by
  simp only [period_starts_of, datesOf, List.map_map]
  rfl

theorem map_fst_getD {bs : List (Date × Date)} {i : Nat} (hi : i < bs.length) :
    (bs.map Prod.fst).getD i default = (bs.getD i default).1 := by
  rw [List.getD_eq_getElem?_getD, List.getD_eq_getElem?_getD,
    List.getElem?_eq_getElem (by simpa using hi),
    List.getElem?_eq_getElem hi]
  simp

theorem chain_contig_getD {bs : List (Date × Date)}
    (hchain : List.Chain' (fun a b : Date × Date => Date.succ a.2 = b.1) bs)
    {i : Nat} (hi : i + 1 < bs.length) :
    Date.succ (bs.getD i default).2 = (bs.getD (i + 1) default).1 := by
  have hcg := List.chain'_iff_get.mp hchain i (by omega)
  rw [List.getD_eq_getElem?_getD, List.getD_eq_getElem?_getD,
    List.getElem?_eq_getElem (by omega), List.getElem?_eq_getElem hi]
  simpa [List.get_eq_getElem] using hcg

theorem getD_mem_pair {bs : List (Date × Date)} {i : Nat}
    (hi : i < bs.length) : bs.getD i default ∈ bs := by
  rw [List.getD_eq_getElem?_getD, List.getElem?_eq_getElem hi]
  exact List.getElem_mem hi

theorem sorted_map_fst {bs : List (Date × Date)}
    (hlt : List.Chain' (fun a b : Date × Date => a.1 < b.1) bs) :
    List.Pairwise (fun p q : Date => p ≤ q) (bs.map Prod.fst) := by
  haveI : IsTrans (Date × Date) (fun a b : Date × Date => a.1 < b.1) :=
    ⟨fun a b c h1 h2 => Date.lt_trans h1 h2⟩
  have hpw := List.chain'_iff_pairwise.mp hlt
  rw [List.pairwise_map]
  exact hpw.imp fun h => Date.le_of_lt h

theorem table_containment {y m len : Int} {pt : String} {n : Nat}
    {pl : List Period}
    (hpt : PERIODS pt = some len) (hm1 : 1 ≤ m) (hm2 : m ≤ 12)
    (hgen : generate_period_boundaries y m pt n = some (datesOf pl))
    {d : Date} (hd : ValidDate d)
    (hr1 : 1 ≤ bisect_right ((datesOf pl).map Prod.fst) d)
    (hr2 : d ≤ (pl.getD (pl.length - 1) default).end_date) :
    (pl.getD (bisect_right ((datesOf pl).map Prod.fst) d - 1)
        default).start_date ≤ d ∧
    d ≤ (pl.getD (bisect_right ((datesOf pl).map Prod.fst) d - 1)
        default).end_date ∧
    bisect_right ((datesOf pl).map Prod.fst) d - 1 < pl.length := by
  obtain ⟨hlen, -, hchain, hmem, hltchain⟩ :=
    generate_period_boundaries_props hpt n y m (datesOf pl) hm1 hm2 hgen
  have hsorted := sorted_map_fst hltchain
  obtain ⟨hb1, hb2, hb3⟩ := bisect_right_spec ((datesOf pl).map Prod.fst) d
    hsorted
  have hmaplen : ((datesOf pl).map Prod.fst).length = pl.length := by
    simp [datesOf]
  set r := bisect_right ((datesOf pl).map Prod.fst) d with hrdef
  have hrlen : r ≤ pl.length := by omega
  have hplpos : 0 < pl.length := by omega
  have hidx : r - 1 < pl.length := by omega
  have hstart : (pl.getD (r - 1) default).start_date ≤ d := by
    have hj := hb2 (r - 1) (by omega)
    rw [map_fst_getD (by rw [datesOf_length]; omega), datesOf_fst hidx] at hj
    exact hj
  refine ⟨hstart, ?_, hidx⟩
  rcases Nat.eq_or_lt_of_le hrlen with hre | hrlt
  · rw [hre]
    exact hr2
  · have hj := hb3 r (le_refl r) (by omega)
    rw [map_fst_getD (by rw [datesOf_length]; omega), datesOf_fst hrlt] at hj
    have hcontig := chain_contig_getD hchain
      (i := r - 1) (by rw [datesOf_length]; omega)
    rw [datesOf_snd hidx] at hcontig
    have hr1' : r - 1 + 1 = r := by omega
    rw [hr1', datesOf_fst hrlt] at hcontig
    rw [← hcontig] at hj
    have hend := hmem ((datesOf pl).getD (r - 1) default)
      (getD_mem_pair (by rw [datesOf_length]; omega))
    rw [datesOf_snd hidx] at hend
    exact le_of_lt_succ_month_end hd hend.2.2.2.2.1 hend.2.2.2.2.2 hj

theorem bisect_of_end_date {y m len : Int} {pt : String} {n : Nat}
    {pl : List Period}
    (hpt : PERIODS pt = some len) (hm1 : 1 ≤ m) (hm2 : m ≤ 12)
    (hgen : generate_period_boundaries y m pt n = some (datesOf pl))
    {i : Nat} (hi : i < pl.length) :
    bisect_right ((datesOf pl).map Prod.fst)
      ((pl.getD i default).end_date) = i + 1 := by
  obtain ⟨hlen, -, hchain, hmem, hltchain⟩ :=
    generate_period_boundaries_props hpt n y m (datesOf pl) hm1 hm2 hgen
  have hsorted := sorted_map_fst hltchain
  set e := (pl.getD i default).end_date with hedef
  obtain ⟨hb1, hb2, hb3⟩ := bisect_right_spec ((datesOf pl).map Prod.fst) e
    hsorted
  have hmaplen : ((datesOf pl).map Prod.fst).length = pl.length := by
    simp [datesOf]
  set r := bisect_right ((datesOf pl).map Prod.fst) e with hrdef
  have hse := hmem ((datesOf pl).getD i default)
    (getD_mem_pair (by rw [datesOf_length]; omega))
  have hstart_le : ((datesOf pl).getD i default).1 ≤ e := by
    rw [hedef, ← datesOf_snd hi]
    exact hse.1
  have hge : i + 1 ≤ r := by
    by_contra hcon
    have hj := hb3 i (by omega) (by omega)
    rw [map_fst_getD (by rw [datesOf_length]; omega)] at hj
    exact absurd hstart_le (Date.not_le.mpr hj)
  have hle : r ≤ i + 1 := by
    by_contra hcon
    have hi1 : i + 1 < pl.length := by omega
    have hj := hb2 (i + 1) (by omega)
    rw [map_fst_getD (by rw [datesOf_length]; omega), datesOf_fst hi1] at hj
    have hcontig := chain_contig_getD hchain
      (i := i) (by rw [datesOf_length]; omega)
    rw [datesOf_snd hi, datesOf_fst hi1] at hcontig
    rw [← hcontig] at hj
    have hltsucc := Date.lt_succ e
    rw [hedef] at hltsucc
    exact absurd hltsucc (Date.not_lt.mpr hj)
  omega

theorem datesOf_set_preserve {pl : List Period} {i : Nat} {q : Period}
    (hq1 : q.start_date = (pl.getD i default).start_date)
    (hq2 : q.end_date = (pl.getD i default).end_date) :
    datesOf (pl.set i q) = datesOf pl := by
  apply List.ext_getElem
  · simp [datesOf]
  · intro j h1 h2
    simp only [datesOf, List.getElem_map, List.getElem_set]
    split
    · rename_i hij
      have hjlen : j < pl.length := by simpa [datesOf] using h2
      rw [hq1, hq2, hij, List.getD_eq_getElem?_getD,
        List.getElem?_eq_getElem hjlen]
      simp
    · rfl

theorem assign_some_table {y m len : Int} {pt : String} {n : Nat}
    {pl : List Period}
    (hpt : PERIODS pt = some len) (hm1 : 1 ≤ m) (hm2 : m ≤ 12)
    (hgen : generate_period_boundaries y m pt n = some (datesOf pl))
    (sp : Split) (hd : ValidDate sp.date) :
    ∃ pl', assign ((datesOf pl).map Prod.fst) pl sp = some pl' ∧
      datesOf pl' = datesOf pl := by
  simp only [assign]
  by_cases hcond : 0 ≤ (bisect_right ((datesOf pl).map Prod.fst) sp.date : Int)
        - 1 ∧
      sp.date ≤ (pl.getD (pl.length - 1) default).end_date
  · rw [if_pos hcond]
    obtain ⟨hc1, hc2⟩ := hcond
    have hr1 : 1 ≤ bisect_right ((datesOf pl).map Prod.fst) sp.date := by
      omega
    obtain ⟨hs1, hs2, hidx⟩ := table_containment hpt hm1 hm2 hgen hd hr1 hc2
    rw [if_pos ⟨hs2, hs1⟩]
    refine ⟨_, rfl, datesOf_set_preserve ?_ ?_⟩
    · by_cases hneg : sp.amount < ZERO
      · rw [if_pos hneg]
      · rw [if_neg hneg]
    · by_cases hneg : sp.amount < ZERO
      · rw [if_pos hneg]
      · rw [if_neg hneg]
  · rw [if_neg hcond]
    exact ⟨pl, rfl, rfl⟩

theorem get_splits_some_table {y m len : Int} {pt : String} {n : Nat}
    (hpt : PERIODS pt = some len) (hm1 : 1 ≤ m) (hm2 : m ≤ 12) :
    ∀ (splits : List Split) (pl : List Period),
      generate_period_boundaries y m pt n = some (datesOf pl) →
      (∀ sp ∈ splits, ValidDate sp.date) →
      ∃ pl', get_splits splits ((datesOf pl).map Prod.fst) pl = some pl' ∧
        datesOf pl' = datesOf pl := by
  intro splits
  induction splits with
  | nil => intro pl _ _; exact ⟨pl, rfl, rfl⟩
  | cons sp rest ih =>
    intro pl hgen hv
    obtain ⟨pm, hassign, hdates⟩ := assign_some_table hpt hm1 hm2 hgen sp
      (hv sp (List.mem_cons_self sp rest))
    obtain ⟨pl', hrest, hdates'⟩ := ih pm (by rw [hdates]; exact hgen)
      (fun q hq => hv q (List.mem_cons_of_mem sp hq))
    rw [get_splits, List.foldlM_cons, hassign]
    simp only [Option.bind_eq_bind, Option.some_bind]
    rw [get_splits, hdates] at hrest
    exact ⟨pl', hrest, by rw [hdates', hdates]⟩

/-- C2: over a period table whose date frame was produced by
`generate_period_boundaries`, every split that passes the window filter is
assigned by `bisect_right` to a period with
`start_date <= split_date <= end_date`; a split dated exactly on a period's
end date is assigned to that period and not the next one; and the assertion
`period[1] >= trans_date >= period[0]` in `get_splits` never fails — every
run over validly dated splits returns a result instead of raising
`AssertionError`. -/
theorem get_splits_assigns_containing_period (y m len : Int) (pt : String)
    (n : Nat) (plist : List Period)
    (hpt : PERIODS pt = some len) (hm1 : 1 ≤ m) (hm2 : m ≤ 12)
    (hgen : generate_period_boundaries y m pt n = some (datesOf plist)) :
    (∀ d : Date, ValidDate d →
      1 ≤ bisect_right (period_starts_of plist) d →
      d ≤ (plist.getD (plist.length - 1) default).end_date →
      (plist.getD (bisect_right (period_starts_of plist) d - 1)
          default).start_date ≤ d ∧
      d ≤ (plist.getD (bisect_right (period_starts_of plist) d - 1)
          default).end_date) ∧
    (∀ i, i < plist.length →
      bisect_right (period_starts_of plist)
        ((plist.getD i default).end_date) = i + 1) ∧
    (∀ splits : List Split, (∀ sp ∈ splits, ValidDate sp.date) →
      (get_splits splits (period_starts_of plist) plist).isSome) := by
  rw [period_starts_of_datesOf]
  refine ⟨?_, ?_, ?_⟩
  · intro d hd hr1 hr2
    obtain ⟨h1, h2, -⟩ := table_containment hpt hm1 hm2 hgen hd hr1 hr2
    exact ⟨h1, h2⟩
  · intro i hi
    exact bisect_of_end_date hpt hm1 hm2 hgen hi
  · intro splits hv
    obtain ⟨pl', h1, -⟩ := get_splits_some_table hpt hm1 hm2 splits plist hgen
      hv
    rw [h1]
    rfl

theorem get_splits_assigns_containing_period_witness :
    ((wPeriods.getD (bisect_right (period_starts_of wPeriods)
        ⟨2020, 1, 31⟩ - 1) default).start_date ≤ (⟨2020, 1, 31⟩ : Date) ∧
      (⟨2020, 1, 31⟩ : Date) ≤ (wPeriods.getD
        (bisect_right (period_starts_of wPeriods) ⟨2020, 1, 31⟩ - 1)
        default).end_date) ∧
    bisect_right (period_starts_of wPeriods)
      ((wPeriods.getD 0 default).end_date) = 0 + 1 ∧
    (get_splits wSplits (period_starts_of wPeriods) wPeriods).isSome := by
  obtain ⟨h1, h2, h3⟩ := get_splits_assigns_containing_period 2020 1 1
    "monthly" 3 wPeriods (by decide) (by decide) (by decide) (by decide)
  exact ⟨h1 ⟨2020, 1, 31⟩ (by decide) (by decide) (by decide),
    h2 0 (by decide), h3 wSplits (by decide)⟩

/-! ## Aggregation over the account subtree -/

theorem fold_descendants (starts : List Date) :
    ∀ (ds : List Acct) (pl : List Period),
      ds.foldlM (fun pl acct => get_splits acct.splits starts pl) pl =
        get_splits (ds.flatMap Acct.splits) starts pl := by
  intro ds
  induction ds with
  | nil => intro pl; rfl
  | cons a rest ih =>
    intro pl
    rw [List.foldlM_cons, List.flatMap_cons]
    have hrhs : get_splits (a.splits ++ rest.flatMap Acct.splits) starts pl =
        get_splits a.splits starts pl >>= fun b =>
          get_splits (rest.flatMap Acct.splits) starts b := by
      rw [get_splits, List.foldlM_append]
      rfl
    rw [hrhs]
    cases h : get_splits a.splits starts pl with
    | none => rfl
    | some b =>
      simp only [Option.bind_eq_bind, Option.some_bind]
      exact ih b

/-- C1 amended: when the resolved account of interest has at least one
descendant, the aggregation run invokes `get_splits` once for every
descendant only — the parent account's own splits are never scanned — all
accumulating into the same period table, so the per-period sums are a flat
sum over every descendant's splits (one `get_splits` run over the
concatenation of the descendants' split lists). -/
theorem aggregation_run_descendants_only (acct : Acct) (starts : List Date)
    (pl : List Period) (h : get_descendants acct ≠ []) :
    aggregation_run acct starts pl =
      get_splits ((get_descendants acct).flatMap Acct.splits) starts pl := by
  unfold aggregation_run
  rw [if_neg (by simpa using h)]
  exact fold_descendants starts (get_descendants acct) pl

theorem aggregation_run_descendants_only_witness :
    aggregation_run cexParent wStarts wPeriods =
      get_splits ((get_descendants cexParent).flatMap Acct.splits) wStarts
        wPeriods :=
  aggregation_run_descendants_only cexParent wStarts wPeriods
    (by simp [show get_descendants cexParent = [cexChild] from rfl])

/-- C1 as stated is false on the code: on the concrete tree `cexParent`
(one descendant, parent owns a split of 100, child a split of 5), the run
aggregates only the child's split — total 5 — while a flat sum over the
parent's own splits plus every descendant's splits would give 105. -/
theorem aggregation_run_skips_parent_cex :
    (get_descendants cexParent).length ≠ 0 ∧
    aggregation_run cexParent wStarts wPeriods = some cexResultDesc ∧
    get_splits (cexParent.splits ++
        (get_descendants cexParent).flatMap Acct.splits) wStarts wPeriods =
      some cexResultFlat ∧
    cexResultDesc ≠ cexResultFlat := by
  refine ⟨by simp [show get_descendants cexParent = [cexChild] from rfl],
    ?_, ?_, by decide⟩
  · have hds : get_descendants cexParent = [cexChild] := rfl
    unfold aggregation_run
    rw [hds]
    simp +decide [get_splits, assign, Acct.splits, cexChild, cexResultDesc,
      wStarts, wPeriods, wBounds, initial_period_list, ZERO, bisect_right,
      bisectRightAux, List.foldlM_cons, List.foldlM_nil]
  · have hsplits : cexParent.splits ++
        (get_descendants cexParent).flatMap Acct.splits =
        [⟨⟨2020, 1, 15⟩, 100⟩, ⟨⟨2020, 1, 20⟩, 5⟩] := rfl
    rw [hsplits]
    simp +decide [get_splits, assign, cexResultFlat, wStarts, wPeriods,
      wBounds, initial_period_list, ZERO, bisect_right, bisectRightAux,
      List.foldlM_cons, List.foldlM_nil]
    norm_num
